import Mathlib

/-!
Verification of the sibsiu canteen storefront (src/js/app.ts).

The stores and ledgers of the application are embedded shallowly:

* `CartManager.items` becomes a `List CartItem`; the mutating methods
  `addItem`, `removeItem`, `updateQuantity` become pure functions from
  list to list.  `findItem` (the source helper returning the first
  element satisfying a predicate) is `List.find?`; the in-place
  mutation of the found element is `updateFirst`.
* `UserManager` keeps a roster and an optional current user; `login`
  returns the flag the method returns together with the new state.
* Orders live in a persisted collection; `updateOrderStatus` reads the
  whole collection, returns the boolean the method returns together
  with an `Option (List Order)` that is `some w` exactly when the code
  calls `localStorage.setItem` with the re-serialized collection `w`,
  and `none` when no write happens.
* `MenuManager` holds two arrays of object references into a heap of
  dish records (`MenuState.heap`); `items` and `allDishes` are lists of
  heap addresses, because the source pushes the same object into both
  arrays and later mutates a field in place, which is visible through
  both.  Stored snapshots (`localStorage`) are dereferenced copies, as
  `JSON.stringify` serializes values, not references.
* `OrderManager.loadAdminOrders` sorts with the comparator
  `new Date(b.date).getTime() - new Date(a.date).getTime()`; the host
  valuation of a date string is abstracted as a parameter
  `k : String → Int`, and `Array.prototype.sort` (stable since ES2019)
  is modelled by a stable insertion sort on the descending key order.
-/

namespace Sibsiu

/-- Dish record, from `interface MenuItem` (src/js/app.ts lines 9-18).
The optional `isNew` and `isActive` flags are modelled as `Bool`. -/
structure MenuItem where
  id : Nat
  name : String
  price : Int
  description : String
  category : String
  image : String
  isNew : Bool
  isActive : Bool
deriving DecidableEq, Repr

/-- Cart line, from `interface CartItem extends MenuItem` (lines 20-22):
a dish snapshot plus a quantity. -/
structure CartItem where
  id : Nat
  name : String
  price : Int
  description : String
  category : String
  image : String
  isNew : Bool
  isActive : Bool
  quantity : Int
deriving DecidableEq, Repr

/-- User record, from `interface User` (lines 24-31). -/
structure User where
  id : Nat
  email : String
  name : String
  studentId : String
  isAdmin : Bool
  phone : Option String
deriving DecidableEq, Repr

/-- Order status, from `type OrderStatus` (line 33). -/
inductive OrderStatus where
  | pending
  | preparing
  | ready
  | completed
  | cancelled
deriving DecidableEq, Repr, Fintype

/-- String form of a status, as the literal union values of the
TypeScript type; used where the source compares a status against a
plain string (the admin filter). -/
def statusStr : OrderStatus → String
  | .pending => "pending"
  | .preparing => "preparing"
  | .ready => "ready"
  | .completed => "completed"
  | .cancelled => "cancelled"

/-- Order record, from `interface Order` (lines 35-44); `estimatedTime`
is optional in the source, hence `Option String`. -/
structure Order where
  id : Nat
  userId : Nat
  items : List CartItem
  total : Int
  orderNumber : String
  date : String
  status : OrderStatus
  estimatedTime : Option String
deriving DecidableEq, Repr

/-- Truthiness of an optional string under a JavaScript `if`:
`undefined` and the empty string are falsy, every other string truthy.
Used for the `if (estimatedTime)` guard in `updateOrderStatus`. -/
def truthyStr : Option String → Bool
  | none => false
  | some s => s ≠ ""

/-- The source helper `findIndex` (lines 1676-1683): index of the first
element satisfying the predicate, `none` in place of `-1`. -/
def findIndex {α : Type} (p : α → Bool) : List α → Option Nat
  | [] => none
  | x :: xs => if p x then some 0 else (findIndex p xs).map (· + 1)

/-- In-place update of the element at a given index, as the assignment
`array[i].field = v` or `array[i] = v` on a JavaScript array; out of
bounds it changes nothing. -/
def modifyAt {α : Type} : List α → Nat → (α → α) → List α
  | [], _, _ => []
  | x :: xs, 0, f => f x :: xs
  | x :: xs, i + 1, f => x :: modifyAt xs i f

/-- In-place update of the first element satisfying a predicate, as the
source mutates the object returned by `findItem`. -/
def updateFirst {α : Type} (p : α → Bool) (f : α → α) : List α → List α
  | [] => []
  | x :: xs => if p x then f x :: xs else x :: updateFirst p f xs

/-- Cart line built by `CartManager.addItem` for a dish not yet in the
cart: `{...item, quantity: 1}` (lines 148-151). -/
def mkLine (d : MenuItem) : CartItem :=
  ⟨d.id, d.name, d.price, d.description, d.category, d.image, d.isNew, d.isActive, 1⟩

/-- `CartManager.addItem` (lines 142-157): if a line with the same dish
id exists, its quantity is incremented in place, else a new line with
quantity 1 is appended. -/
def addItem (d : MenuItem) (items : List CartItem) : List CartItem :=
  match items.find? (fun c => c.id == d.id) with
  | some _ => updateFirst (fun c => c.id == d.id) (fun c => { c with quantity := c.quantity + 1 }) items
  | none => items ++ [mkLine d]

/-- `CartManager.removeItem` (lines 159-163): keeps the lines whose id
differs. -/
def removeItem (itemId : Nat) (items : List CartItem) : List CartItem :=
  items.filter (fun c => c.id != itemId)

/-- `CartManager.updateQuantity` (lines 165-176): only acts when a line
with the id exists; a non-positive quantity delegates to `removeItem`,
a positive one overwrites the found line's quantity. -/
def updateQuantity (itemId : Nat) (quantity : Int) (items : List CartItem) : List CartItem :=
  match items.find? (fun c => c.id == itemId) with
  | some _ =>
    if quantity ≤ 0 then removeItem itemId items
    else updateFirst (fun c => c.id == itemId) (fun c => { c with quantity := quantity }) items
  | none => items

/-- One user action on the cart, for reasoning about arbitrary
sequences of the three mutating operations. -/
inductive CartOp where
  | add (d : MenuItem)
  | remove (itemId : Nat)
  | update (itemId : Nat) (quantity : Int)

/-- Interpretation of one cart operation. -/
def applyOp (items : List CartItem) : CartOp → List CartItem
  | .add d => addItem d items
  | .remove itemId => removeItem itemId items
  | .update itemId q => updateQuantity itemId q items

/-- Running a sequence of cart operations from the empty cart (the
constructor state of `CartManager` with nothing persisted). -/
def runOps (ops : List CartOp) : List CartItem :=
  ops.foldl applyOp []

/-- State of `UserManager` relevant to `login` (lines 262-302): the
roster and the optional current user. -/
structure UMState where
  users : List User
  currentUser : Option User
deriving DecidableEq, Repr

/-- `UserManager.login` (lines 293-302): looks up the first roster user
with exactly the given email; succeeds only when one is found and the
password equals the constant `password`, in which case it becomes the
current user; otherwise nothing changes and `false` is returned. -/
def login (s : UMState) (email password : String) : Bool × UMState :=
  match s.users.find? (fun u => u.email == email) with
  | some u =>
    if password == "password" then (true, { s with currentUser := some u })
    else (false, s)
  | none => (false, s)

/-- Field update performed on `orders[orderIndex]` by
`UserManager.updateOrderStatus` (lines 380-383): the status is always
overwritten; `estimatedTime` only when the argument is truthy. -/
def writeStatus (newStatus : OrderStatus) (estimatedTime : Option String) (o : Order) : Order :=
  { o with
    status := newStatus
    estimatedTime := if truthyStr estimatedTime then estimatedTime else o.estimatedTime }

/-- `UserManager.updateOrderStatus` (lines 375-388) acting on the
persisted collection it reads back: the first component is the returned
boolean, the second is `some` of the collection written back to the
store, or `none` when the id is not found and no write happens. -/
def updateOrderStatus (orders : List Order) (orderId : Nat) (newStatus : OrderStatus)
    (estimatedTime : Option String) : Bool × Option (List Order) :=
  match findIndex (fun o => o.id == orderId) orders with
  | some i => (true, some (modifyAt orders i (writeStatus newStatus estimatedTime)))
  | none => (false, none)

/-- One admin action offered by the order panel, one per value of the
`data-action` attribute built in `renderStatusButtons`. -/
inductive AdminAction where
  | toPreparing
  | toReady
  | toCompleted
  | toCancelled
  | setTime
deriving DecidableEq, Repr, Fintype

/-- `OrderManager.renderStatusButtons` (lines 1503-1547): the actions
whose buttons are rendered for an order of the given status, in the
order the source pushes them. -/
def renderStatusButtons (currentStatus : OrderStatus) : List AdminAction :=
  (if currentStatus = .pending then [.toPreparing, .toCancelled] else []) ++
  (if currentStatus = .preparing then [.toReady, .toCancelled] else []) ++
  (if currentStatus = .ready then [.toCompleted] else []) ++
  (if currentStatus ≠ .completed ∧ currentStatus ≠ .cancelled then [.setTime] else [])

/-- `OrderManager.handleOrderAction` (lines 1573-1607): the status each
action writes through `updateOrderStatus` when it goes through (for
`toCancelled`, when the modal is confirmed; for `setTime`, when a
non-empty time is supplied — the handler then calls
`updateOrderStatus(orderId, 'preparing', time)`). -/
def actionWrites : AdminAction → OrderStatus
  | .toPreparing => .preparing
  | .toReady => .ready
  | .toCompleted => .completed
  | .toCancelled => .cancelled
  | .setTime => .preparing

/-- Stable insertion of an order into a list sorted by descending date
key: the order goes after every element whose key is not smaller, as
the ES2019 stable sort places equal elements in original order. -/
def insertDesc (k : String → Int) (o : Order) : List Order → List Order
  | [] => [o]
  | x :: xs => if k x.date < k o.date then o :: x :: xs else x :: insertDesc k o xs

/-- The sort in `loadAdminOrders` (lines 1430-1432): stable sort of the
whole collection by descending `new Date(order.date).getTime()`, the
host valuation of the stored date string being the parameter `k`. -/
def sortDesc (k : String → Int) (orders : List Order) : List Order :=
  orders.foldl (fun acc o => insertDesc k o acc) []

/-- `OrderManager.loadAdminOrders` (lines 1423-1440), up to rendering:
sorts all persisted orders by descending date key, then filters by the
requested status unless the sentinel `all` is requested. -/
def loadAdminOrders (k : String → Int) (filterStatus : String) (orders : List Order) : List Order :=
  let sortedOrders := sortDesc k orders
  if filterStatus = "all" then sortedOrders
  else sortedOrders.filter (fun o => statusStr o.status == filterStatus)

/-- Order record built by `processOrder` at checkout (lines 1807-1816):
status `pending`, date the localized creation-time string. -/
def checkoutOrder (nowId : Nat) (userId : Nat) (cartItems : List CartItem) (total : Int)
    (orderNumber dateStr selectedTime : String) : Order :=
  ⟨nowId, userId, cartItems, total, orderNumber, dateStr, .pending, some selectedTime⟩

/-- Menu draft passed to `MenuManager.addMenuItem`, which in the source
has type `Omit<MenuItem, 'id' | 'isActive'>` (line 444). -/
structure MenuDraft where
  name : String
  price : Int
  description : String
  category : String
  image : String
  isNew : Bool
deriving DecidableEq, Repr

/-- Placeholder dish used to totalize heap dereferencing; never reached
from states whose reference lists stay within the heap. -/
def defaultDish : MenuItem :=
  ⟨0, "", 0, "", "", "", false, false⟩

/-- State of `MenuManager` (lines 402-516).  `heap` holds the dish
objects; `items` and `allDishes` hold references (heap addresses),
because the source pushes the same object into both arrays and later
mutates a field of it in place.  `storedMenu` and `storedAll` are the
dereferenced snapshots last written to the `menuItems` and `allDishes`
keys of the local store. -/
structure MenuState where
  heap : List MenuItem
  items : List Nat
  allDishes : List Nat
  storedMenu : List MenuItem
  storedAll : List MenuItem
deriving DecidableEq, Repr

/-- Dereference of a heap address. -/
def cellAt (heap : List MenuItem) (r : Nat) : MenuItem :=
  heap.getD r defaultDish

/-- Dereference of a whole reference list, as `JSON.stringify` applied
to an array of object references serializes the objects. -/
def derefAll (heap : List MenuItem) (refs : List Nat) : List MenuItem :=
  refs.map (cellAt heap)

/-- The dishes of the active list, by value. -/
def activeDishes (s : MenuState) : List MenuItem :=
  derefAll s.heap s.items

/-- The dishes of the archive, by value. -/
def archiveDishes (s : MenuState) : List MenuItem :=
  derefAll s.heap s.allDishes

/-- The ids of the active list. -/
def activeIds (s : MenuState) : List Nat :=
  (activeDishes s).map (fun d => d.id)

/-- The ids of the archive. -/
def archiveIds (s : MenuState) : List Nat :=
  (archiveDishes s).map (fun d => d.id)

/-- `MenuManager.generateId` (lines 505-508):
`Math.max(...this.allDishes.map(dish => dish.id), 0) + 1`; on natural
ids the fold with initial value 0 is exactly the spread with the extra
argument 0. -/
def generateId (s : MenuState) : Nat :=
  (archiveIds s).foldr Nat.max 0 + 1

/-- The dish object allocated by `MenuManager.addMenuItem` (lines
445-449): the draft plus a fresh id and `isActive: true`. -/
def mkDish (s : MenuState) (d : MenuDraft) : MenuItem :=
  ⟨generateId s, d.name, d.price, d.description, d.category, d.image, d.isNew, true⟩

/-- `MenuManager.addMenuItem` (lines 444-456): allocates the new dish,
pushes the same reference into both `items` and `allDishes`, and
persists both lists. -/
def addMenuItem (s : MenuState) (d : MenuDraft) : MenuState :=
  let cell := mkDish s d
  let r := s.heap.length
  let heap := s.heap ++ [cell]
  let items := s.items ++ [r]
  let allDishes := s.allDishes ++ [r]
  ⟨heap, items, allDishes, derefAll heap items, derefAll heap allDishes⟩

/-- `MenuManager.removeMenuItem` (lines 486-495): finds the index of
the first active entry with the id; if found, sets `isActive = false`
on that object in place, splices it out of `items`, and persists the
active list only (`saveMenuToStorage`); `allDishes` and its stored
snapshot are not written. -/
def removeMenuItem (s : MenuState) (itemId : Nat) : MenuState :=
  match findIndex (fun r => (cellAt s.heap r).id == itemId) s.items with
  | some i =>
    let r := s.items.getD i 0
    let heap := modifyAt s.heap r (fun c => { c with isActive := false })
    let items := s.items.eraseIdx i
    ⟨heap, items, s.allDishes, derefAll heap items, s.storedAll⟩
  | none => s

/-- The `MenuManager` state with nothing loaded: empty heap, empty
lists, empty snapshots (the seeded default menu of the source is the
empty list, lines 436-442). -/
def emptyMenu : MenuState :=
  ⟨[], [], [], [], []⟩

/-- Well-formedness of a menu state: every reference points into the
heap.  Every state reachable from `emptyMenu` satisfies it. -/
def WFMenu (s : MenuState) : Prop :=
  (∀ r ∈ s.items, r < s.heap.length) ∧ (∀ r ∈ s.allDishes, r < s.heap.length)

/-- Transition relation of the order state machine as the specification
draws it (spec section 4.3): `pending → preparing → ready → completed`,
with the side exit to `cancelled` from `pending` or `preparing`.  This
definition follows the words of the spec and is compared against
the admin actions the code offers. -/
def specTransition : OrderStatus → OrderStatus → Bool
  | .pending, .preparing => true
  | .pending, .cancelled => true
  | .preparing, .ready => true
  | .preparing, .cancelled => true
  | .ready, .completed => true
  | _, _ => false

/-- Concrete dish draft used by closed witnesses. -/
def sampleDraft : MenuDraft :=
  ⟨"Soup", 150, "daily soup", "Soups", "soup.png", false⟩

/-- Menu state after adding one dish to the empty manager. -/
def menuDemo1 : MenuState :=
  addMenuItem emptyMenu sampleDraft

/-- Menu state after then soft-removing that dish (id 1). -/
def menuDemo2 : MenuState :=
  removeMenuItem menuDemo1 1

/-- Concrete cart line used by closed witnesses. -/
def sampleLine : CartItem :=
  ⟨5, "Tea", 40, "black tea", "Drinks", "tea.png", false, true, 7⟩

/-- Concrete orders used by closed witnesses. -/
def sampleOrderA : Order :=
  ⟨101, 2, [sampleLine], 280, "ORD000101", "08.10.2025, 10:00:00", .pending, none⟩

/-- Second concrete order, newer date string under the sample key. -/
def sampleOrderB : Order :=
  ⟨102, 2, [], 0, "ORD000102", "09.10.2025, 11:30:00", .pending, some "12:00"⟩

/-- Third concrete order, of another status. -/
def sampleOrderC : Order :=
  ⟨103, 1, [], 0, "ORD000103", "10.10.2025, 09:00:00", .ready, none⟩

/-- Concrete date valuation used by closed witnesses: a numeric reading
of the final clock digits, standing in for the host date parser. -/
def sampleKey (s : String) : Int :=
  (s.toList.filter Char.isDigit).foldl (fun a c => a * 10 + (c.toNat - 48)) 0

/-- Concrete identity state with the seeded roster (lines 272-291) and
the student already signed in, used by closed witnesses. -/
def sampleUM : UMState :=
  ⟨[⟨1, "admin@sibsiu.ru", "Admin", "ADMIN001", true, none⟩,
    ⟨2, "student@sibsiu.ru", "Ivanov", "202412345", false, none⟩],
   some ⟨2, "student@sibsiu.ru", "Ivanov", "202412345", false, none⟩⟩

/-! Helper lemmas about the embedded list and array-helper operations. -/

theorem findIndex_eq_none {α : Type} (p : α → Bool) (l : List α)
    (h : ∀ x ∈ l, p x = false) : findIndex p l = none := by
  induction l with
  | nil => rfl
  | cons x xs ih =>
    have hx := h x (List.mem_cons_self x xs)
    simp [findIndex, hx, ih fun y hy => h y (List.mem_cons_of_mem x hy)]

theorem findIndex_exists_of_mem {α : Type} (p : α → Bool) (l : List α) (x : α)
    (hx : x ∈ l) (hp : p x = true) : ∃ i, findIndex p l = some i := by
  induction l with
  | nil => cases hx
  | cons y ys ih =>
    by_cases hy : p y = true
    · exact ⟨0, by simp [findIndex, hy]⟩
    · rcases List.mem_cons.mp hx with rfl | hmem
      · exact absurd hp hy
      · obtain ⟨i, hi⟩ := ih hmem
        exact ⟨i + 1, by simp [findIndex, Bool.of_not_eq_true hy, hi]⟩

theorem findIndex_append_first {α : Type} (p : α → Bool) (pre post : List α) (c : α)
    (hpre : ∀ x ∈ pre, p x = false) (hc : p c = true) :
    findIndex p (pre ++ c :: post) = some pre.length := by
  induction pre with
  | nil => simp [findIndex, hc]
  | cons x xs ih =>
    have hx := hpre x (List.mem_cons_self x xs)
    simp [findIndex, hx, ih fun y hy => hpre y (List.mem_cons_of_mem x hy)]

theorem findIndex_lt_length {α : Type} (p : α → Bool) (l : List α) (i : Nat)
    (h : findIndex p l = some i) : i < l.length := by
  induction l generalizing i with
  | nil => cases h
  | cons x xs ih =>
    by_cases hx : p x = true
    · simp [findIndex, hx] at h
      simp only [List.length_cons]
      omega
    · simp [findIndex, Bool.of_not_eq_true hx] at h
      obtain ⟨j, hj, rfl⟩ := h
      have := ih j hj
      simp
      omega

theorem modifyAt_append_middle {α : Type} (f : α → α) (pre post : List α) (c : α) :
    modifyAt (pre ++ c :: post) pre.length f = pre ++ f c :: post := by
  induction pre with
  | nil => rfl
  | cons x xs ih => simp [modifyAt, ih]

theorem getD_modifyAt_self {α : Type} (f : α → α) (l : List α) (i : Nat) (d : α)
    (h : i < l.length) : (modifyAt l i f).getD i d = f (l.getD i d) := by
  induction l generalizing i with
  | nil => cases h
  | cons x xs ih =>
    cases i with
    | zero => rfl
    | succ j => simpa [modifyAt] using ih j (by simpa using h)

theorem getD_modifyAt_proj {α β : Type} (g : α → β) (f : α → α)
    (hgf : ∀ x, g (f x) = g x) (l : List α) (i j : Nat) (d : α) :
    g ((modifyAt l i f).getD j d) = g (l.getD j d) := by
  induction l generalizing i j with
  | nil => rfl
  | cons x xs ih =>
    cases i with
    | zero =>
      cases j with
      | zero => simpa [modifyAt] using hgf x
      | succ j => rfl
    | succ i =>
      cases j with
      | zero => rfl
      | succ j => simpa [modifyAt] using ih i j

theorem getD_append_lt {α : Type} (l₁ l₂ : List α) (i : Nat) (d : α)
    (h : i < l₁.length) : (l₁ ++ l₂).getD i d = l₁.getD i d := by
  induction l₁ generalizing i with
  | nil => cases h
  | cons x xs ih =>
    cases i with
    | zero => rfl
    | succ j => simpa using ih j (by simpa using h)

theorem getD_append_self {α : Type} (l : List α) (x : α) (d : α) :
    (l ++ [x]).getD l.length d = x := by
  induction l with
  | nil => rfl
  | cons y ys ih => simp [ih]

theorem getD_mem {α : Type} (l : List α) (i : Nat) (d : α) (h : i < l.length) :
    l.getD i d ∈ l := by
  induction l generalizing i with
  | nil => cases h
  | cons x xs ih =>
    cases i with
    | zero => exact List.mem_cons_self x xs
    | succ j => exact List.mem_cons_of_mem x (ih j (by simpa using h))

theorem find?_append_first {α : Type} (p : α → Bool) (pre post : List α) (c : α)
    (hpre : ∀ x ∈ pre, p x = false) (hc : p c = true) :
    (pre ++ c :: post).find? p = some c := by
  induction pre with
  | nil => simp [List.find?_cons, hc]
  | cons x xs ih =>
    have hx := hpre x (List.mem_cons_self x xs)
    simp [List.find?_cons, hx, ih fun y hy => hpre y (List.mem_cons_of_mem x hy)]

theorem updateFirst_append {α : Type} (p : α → Bool) (f : α → α) (pre post : List α) (c : α)
    (hpre : ∀ x ∈ pre, p x = false) (hc : p c = true) :
    updateFirst p f (pre ++ c :: post) = pre ++ f c :: post := by
  induction pre with
  | nil => simp [updateFirst, hc]
  | cons x xs ih =>
    have hx := hpre x (List.mem_cons_self x xs)
    simp [updateFirst, hx, ih fun y hy => hpre y (List.mem_cons_of_mem x hy)]

theorem map_updateFirst {α β : Type} (p : α → Bool) (f : α → α) (g : α → β)
    (hgf : ∀ x, g (f x) = g x) (l : List α) :
    (updateFirst p f l).map g = l.map g := by
  induction l with
  | nil => rfl
  | cons x xs ih =>
    by_cases hx : p x = true
    · simp [updateFirst, hx, hgf x]
    · simp [updateFirst, Bool.of_not_eq_true hx, ih]

theorem mem_le_foldr_max (l : List Nat) (a : Nat) (h : a ∈ l) :
    a ≤ l.foldr Nat.max 0 := by
  induction l with
  | nil => cases h
  | cons x xs ih =>
    rcases List.mem_cons.mp h with rfl | hmem
    · exact Nat.le_max_left a (xs.foldr Nat.max 0)
    · exact le_trans (ih hmem) (Nat.le_max_right x (xs.foldr Nat.max 0))

/-! Cart Ledger claims. -/

theorem applyOp_keeps_nodup (items : List CartItem) (op : CartOp)
    (h : (items.map fun c => c.id).Nodup) :
    ((applyOp items op).map fun c => c.id).Nodup := by
  cases op with
  | add d =>
    simp only [applyOp, addItem]
    cases hfind : items.find? (fun c => c.id == d.id) with
    | some c =>
      simp only []
      rw [map_updateFirst (fun c : CartItem => c.id == d.id)
        (fun c : CartItem => { c with quantity := c.quantity + 1 })
        (fun c : CartItem => c.id) (fun x => rfl)]
      exact h
    | none =>
      simp only [List.map_append]
      have hmem : d.id ∉ items.map fun c => c.id := by
        intro hmem
        obtain ⟨c, hc, hcid⟩ := List.mem_map.mp hmem
        have := List.find?_eq_none.mp hfind c hc
        simp [hcid] at this
      refine List.Nodup.append h (by simp) ?_
      simpa [mkLine, List.disjoint_singleton] using hmem
  | remove itemId =>
    simp only [applyOp, removeItem]
    exact h.sublist ((List.filter_sublist items).map _)
  | update itemId q =>
    simp only [applyOp, updateQuantity]
    cases hfind : items.find? (fun c => c.id == itemId) with
    | none => exact h
    | some c =>
      by_cases hq : q ≤ 0
      · simp only [if_pos hq, removeItem]
        exact h.sublist ((List.filter_sublist items).map _)
      · simp only [if_neg hq]
        rw [map_updateFirst (fun c : CartItem => c.id == itemId)
          (fun c : CartItem => { c with quantity := q })
          (fun c : CartItem => c.id) (fun x => rfl)]
        exact h

theorem foldl_applyOp_nodup (ops : List CartOp) (init : List CartItem)
    (h : (init.map fun c => c.id).Nodup) :
    ((ops.foldl applyOp init).map fun c => c.id).Nodup := by
  induction ops generalizing init with
  | nil => exact h
  | cons op rest ih => exact ih (applyOp init op) (applyOp_keeps_nodup init op h)

/-- C6: starting from the empty cart, any finite sequence of `addItem`,
`removeItem` and `updateQuantity` calls with arbitrary arguments leaves
the cart without two lines sharing a dish id. -/
theorem cart_no_duplicate_ids (ops : List CartOp) :
    ((runOps ops).map fun c => c.id).Nodup :=
  foldl_applyOp_nodup ops [] (by simp)

/-- C7: `updateQuantity(id, 0)` produces exactly the line list of
`removeItem(id)`; any `n ≤ 0` behaves like `removeItem(id)`; and for
`n > 0`, when a line with the id is present, the first such line gets
quantity exactly `n` and every other line is untouched. -/
theorem updateQuantity_remove_equiv (items : List CartItem) (itemId : Nat) (n : Int) :
    (updateQuantity itemId 0 items = removeItem itemId items) ∧
    (n ≤ 0 → updateQuantity itemId n items = removeItem itemId items) ∧
    (0 < n → ∀ pre c post, items = pre ++ c :: post → c.id = itemId →
      (∀ x ∈ pre, x.id ≠ itemId) →
      updateQuantity itemId n items = pre ++ { c with quantity := n } :: post) := by
  have key : ∀ m : Int, m ≤ 0 → updateQuantity itemId m items = removeItem itemId items := by
    intro m hm
    simp only [updateQuantity]
    cases hfind : items.find? (fun c => c.id == itemId) with
    | some c => simp only [if_pos hm]
    | none =>
      have hall : ∀ c ∈ items, (c.id != itemId) = true := by
        intro c hc
        have := List.find?_eq_none.mp hfind c hc
        simpa [bne] using this
      exact ((List.filter_eq_self.mpr hall).symm : items = removeItem itemId items)
  refine ⟨key 0 le_rfl, key n, ?_⟩
  intro hn pre c post hitems hcid hpre
  subst hitems
  have hpc : (c.id == itemId) = true := by simp [hcid]
  have hpre2 : ∀ x ∈ pre, (x.id == itemId) = false := by
    intro x hx
    simpa using hpre x hx
  simp only [updateQuantity]
  rw [find?_append_first _ _ _ _ hpre2 hpc]
  simp only [if_neg (by omega : ¬ n ≤ 0)]
  exact updateFirst_append _ _ _ _ _ hpre2 hpc

/-- Witness for C7 at the one-line cart `[sampleLine]` (dish id 5,
quantity 7): setting quantity 0 removes the line, setting quantity 3
overwrites the quantity with exactly 3. -/
theorem updateQuantity_remove_equiv_witness :
    updateQuantity 5 0 [sampleLine] = removeItem 5 [sampleLine] ∧
    updateQuantity 5 3 [sampleLine] =
      [⟨5, "Tea", 40, "black tea", "Drinks", "tea.png", false, true, 3⟩] := by
  refine ⟨(updateQuantity_remove_equiv [sampleLine] 5 3).1, ?_⟩
  have h := (updateQuantity_remove_equiv [sampleLine] 5 3).2.2 (by norm_num)
    [] sampleLine [] rfl rfl (by simp)
  simpa [sampleLine] using h

/-- C10: `updateQuantity(id, n)` on a cart with no line for `id` leaves
the line list unchanged for every `n`, positive included; it never
creates a line. -/
theorem updateQuantity_absent_id (items : List CartItem) (itemId : Nat) (n : Int)
    (h : ∀ c ∈ items, c.id ≠ itemId) : updateQuantity itemId n items = items := by
  have hfind : items.find? (fun c => c.id == itemId) = none := by
    rw [List.find?_eq_none]
    intro c hc
    simp [h c hc]
  simp [updateQuantity, hfind]

/-- Witness for C10: a positive update for the absent id 9 leaves the
one-line cart untouched, and any update leaves the empty cart empty. -/
theorem updateQuantity_absent_id_witness :
    updateQuantity 9 2 [sampleLine] = [sampleLine] ∧ updateQuantity 9 2 [] = [] := by
  constructor
  · exact updateQuantity_absent_id [sampleLine] 9 2 (by simp [sampleLine])
  · exact updateQuantity_absent_id [] 9 2 (by simp)

/-! Identity Store claim. -/

/-- C8: a `login` call fails exactly when no roster user has the given
email or the password is not the constant `password`, and a failing
call leaves the whole state — roster and current session, signed in or
not — exactly as it was. -/
theorem login_failure_frame (s : UMState) (email password : String) :
    ((login s email password).1 = false ↔
      ((∀ u ∈ s.users, u.email ≠ email) ∨ password ≠ "password")) ∧
    ((login s email password).1 = false → (login s email password).2 = s) := by
  simp only [login]
  cases hfind : s.users.find? (fun u => u.email == email) with
  | none =>
    refine ⟨⟨fun _ => ?_, fun _ => rfl⟩, fun _ => rfl⟩
    left
    intro u hu
    have := List.find?_eq_none.mp hfind u hu
    simpa using this
  | some u =>
    by_cases hpw : password = "password"
    · simp only [hpw, beq_self_eq_true, if_true]
      constructor
      · constructor
        · intro hfalse
          cases hfalse
        · rintro (hall | hne)
          · have hu := List.mem_of_find?_eq_some hfind
            have heq : u.email = email := by simpa using List.find?_some hfind
            exact absurd heq (hall u hu)
          · exact absurd rfl hne
      · intro hfalse
        cases hfalse
    · have hbeq : (password == "password") = false := by simpa using hpw
      simp only [hbeq, if_false]
      exact ⟨⟨fun _ => Or.inr hpw, fun _ => rfl⟩, fun _ => rfl⟩

/-- Witness for C8 on the seeded roster with the student signed in: a
wrong password for the admin email fails and preserves the session. -/
theorem login_failure_frame_witness :
    (login sampleUM "admin@sibsiu.ru" "wrong").1 = false ∧
    (login sampleUM "admin@sibsiu.ru" "wrong").2 = sampleUM := by
  have hfail : (login sampleUM "admin@sibsiu.ru" "wrong").1 = false :=
    (login_failure_frame sampleUM "admin@sibsiu.ru" "wrong").1.mpr (Or.inr (by decide))
  exact ⟨hfail, (login_failure_frame sampleUM "admin@sibsiu.ru" "wrong").2 hfail⟩

/-! Order Ledger claims. -/

/-- C3: `updateOrderStatus` on an id matching no stored order returns
`false` and performs no write to the store (so the persisted collection
is unchanged byte for byte), and on a matching id it returns `true`;
the embedded operation is a total function, so no exception is
possible. -/
theorem updateOrderStatus_not_found (orders : List Order) (orderId : Nat)
    (newStatus : OrderStatus) (estimatedTime : Option String) :
    ((∀ o ∈ orders, o.id ≠ orderId) →
      updateOrderStatus orders orderId newStatus estimatedTime = (false, none)) ∧
    ((∃ o ∈ orders, o.id = orderId) →
      (updateOrderStatus orders orderId newStatus estimatedTime).1 = true) := by
  constructor
  · intro h
    have hnone : findIndex (fun o => o.id == orderId) orders = none := by
      apply findIndex_eq_none
      intro o ho
      simp [h o ho]
    simp [updateOrderStatus, hnone]
  · rintro ⟨o, ho, hid⟩
    obtain ⟨i, hi⟩ :=
      findIndex_exists_of_mem (fun o => o.id == orderId) orders o ho (by simp [hid])
    simp [updateOrderStatus, hi]

/-- Witness for C3: id 999 matches nothing in the two-order collection,
so the call reports `false` with no write; id 101 matches and reports
`true`. -/
theorem updateOrderStatus_not_found_witness :
    updateOrderStatus [sampleOrderA, sampleOrderB] 999 .preparing none = (false, none) ∧
    (updateOrderStatus [sampleOrderA, sampleOrderB] 101 .preparing none).1 = true := by
  constructor
  · exact (updateOrderStatus_not_found [sampleOrderA, sampleOrderB] 999 .preparing none).1
      (by simp [sampleOrderA, sampleOrderB])
  · exact (updateOrderStatus_not_found [sampleOrderA, sampleOrderB] 101 .preparing none).2
      ⟨sampleOrderA, by simp, by simp [sampleOrderA]⟩

/-- C9: a falsy `estimatedTime` argument — the empty string, like an
absent one — is never written: on a matching id the order's status is
overwritten, `true` is returned and the collection is written back with
the matched order's stored `estimatedTime` unchanged and every other
order untouched. -/
theorem updateOrderStatus_empty_time (pre post : List Order) (c : Order)
    (newStatus : OrderStatus) (estimatedTime : Option String) :
    truthyStr (some "") = false ∧
    ((∀ x ∈ pre, x.id ≠ c.id) → truthyStr estimatedTime = false →
      updateOrderStatus (pre ++ c :: post) c.id newStatus estimatedTime =
        (true, some (pre ++ { c with status := newStatus } :: post))) := by
  refine ⟨rfl, ?_⟩
  intro hpre hfalsy
  have hpre2 : ∀ x ∈ pre, (x.id == c.id) = false := by
    intro x hx
    simpa using hpre x hx
  have hidx := findIndex_append_first (fun o => o.id == c.id) pre post c hpre2 (by simp)
  have hwrite : writeStatus newStatus estimatedTime c = { c with status := newStatus } := by
    simp [writeStatus, hfalsy]
  simp [updateOrderStatus, hidx, modifyAt_append_middle, hwrite]

/-- Witness for C9: updating order 101 to `ready` with the empty string
as time overwrites the status only, leaving its absent estimated time
absent and the neighbour order untouched. -/
theorem updateOrderStatus_empty_time_witness :
    updateOrderStatus [sampleOrderA, sampleOrderB] 101 .ready (some "") =
      (true, some [{ sampleOrderA with status := .ready }, sampleOrderB]) := by
  have h := (updateOrderStatus_empty_time [] [sampleOrderB] sampleOrderA .ready (some "")).2
    (by simp) rfl
  simpa [sampleOrderA] using h

/-! Admin order view state machine claim. -/

/-- C1 counterexample: the admin view renders a set-time button for a
`ready` order, and its handler writes status `preparing`, a transition
the claimed state machine does not allow; so `completed` is not the
only status an admin action can move a `ready` order to. -/
theorem ready_setTime_counterexample :
    AdminAction.setTime ∈ renderStatusButtons .ready ∧
    actionWrites .setTime = .preparing ∧
    specTransition .ready .preparing = false ∧
    ¬ (∀ a ∈ renderStatusButtons .ready, actionWrites a = .completed) := by
  decide

/-- C1 amended: the buttons for a `ready` order are complete-order and
set-time; every admin action from `ready` writes `completed` or — for
the set-time action — `preparing`; `cancelled` is written only by
actions offered on `pending` or `preparing` orders; no action ever
writes `pending`; and every status change an action performs is either
an edge of the spec state machine or the extra `ready → preparing`
demotion performed by set-time; terminal statuses offer no action. -/
theorem admin_actions_state_machine (st : OrderStatus) (a : AdminAction) :
    renderStatusButtons .ready = [.toCompleted, .setTime] ∧
    (a ∈ renderStatusButtons .ready →
      actionWrites a = .completed ∨ (a = .setTime ∧ actionWrites a = .preparing)) ∧
    (a ∈ renderStatusButtons st → actionWrites a = .cancelled →
      st = .pending ∨ st = .preparing) ∧
    (a ∈ renderStatusButtons st → actionWrites a ≠ .pending) ∧
    (a ∈ renderStatusButtons st → actionWrites a ≠ st →
      specTransition st (actionWrites a) = true ∨
        (st = .ready ∧ a = .setTime ∧ actionWrites a = .preparing)) ∧
    renderStatusButtons .completed = [] ∧
    renderStatusButtons .cancelled = [] := by
  cases st <;> cases a <;> decide

/-- Witness for C1 amended, at the cancel action on a pending order and
its no-return-to-pending conjunct. -/
theorem admin_actions_state_machine_witness :
    (OrderStatus.pending = .pending ∨ OrderStatus.pending = .preparing) ∧
    actionWrites .toCancelled ≠ .pending := by
  have h := admin_actions_state_machine .pending .toCancelled
  exact ⟨h.2.2.1 (by decide) (by decide), h.2.2.2.1 (by decide)⟩

/-! Catalog Store claims. -/

/-- C2: `addMenuItem` gives the new dish the id one above the maximum
archive id (1 on an empty archive), marks it active, and appends it to
both the active list and the archive; the fresh id strictly exceeds
every id in the archive, so an archived id is never reused, and three
additions to the empty manager produce ids 1, 2, 3 in order. -/
theorem addMenuItem_spec (s : MenuState) (d d1 d2 d3 : MenuDraft) (hw : WFMenu s) :
    (mkDish s d).id = (archiveIds s).foldr Nat.max 0 + 1 ∧
    (archiveIds s = [] → (mkDish s d).id = 1) ∧
    (mkDish s d).isActive = true ∧
    activeDishes (addMenuItem s d) = activeDishes s ++ [mkDish s d] ∧
    archiveDishes (addMenuItem s d) = archiveDishes s ++ [mkDish s d] ∧
    (∀ i ∈ archiveIds s, i < (mkDish s d).id) ∧
    (∀ i ∈ archiveIds s, (mkDish s d).id ≠ i) ∧
    archiveIds (addMenuItem (addMenuItem (addMenuItem emptyMenu d1) d2) d3) = [1, 2, 3] ∧
    activeIds (addMenuItem (addMenuItem (addMenuItem emptyMenu d1) d2) d3) = [1, 2, 3] := by
  have hstable : ∀ r ∈ s.items, cellAt (s.heap ++ [mkDish s d]) r = cellAt s.heap r := by
    intro r hr
    simpa [cellAt] using getD_append_lt s.heap [mkDish s d] r defaultDish (hw.1 r hr)
  have hstable2 : ∀ r ∈ s.allDishes, cellAt (s.heap ++ [mkDish s d]) r = cellAt s.heap r := by
    intro r hr
    simpa [cellAt] using getD_append_lt s.heap [mkDish s d] r defaultDish (hw.2 r hr)
  have hlt : ∀ i ∈ archiveIds s, i < (mkDish s d).id := by
    intro i hi
    have := mem_le_foldr_max (archiveIds s) i hi
    simp only [mkDish, generateId]
    omega
  refine ⟨rfl, ?_, rfl, ?_, ?_, hlt, ?_, ?_, ?_⟩
  · intro h
    simp [mkDish, generateId, h]
  · simp only [activeDishes, addMenuItem, derefAll, List.map_append, List.map_cons,
      List.map_nil]
    congr 1
    · exact List.map_congr_left hstable
    · simp [cellAt, getD_append_self]
  · simp only [archiveDishes, addMenuItem, derefAll, List.map_append, List.map_cons,
      List.map_nil]
    congr 1
    · exact List.map_congr_left hstable2
    · simp [cellAt, getD_append_self]
  · intro i hi
    have := hlt i hi
    omega
  · rfl
  · rfl

/-- Witness for C2 on the empty manager: the first dish gets id 1, is
active, and lands in both views. -/
theorem addMenuItem_spec_witness :
    (mkDish emptyMenu sampleDraft).id = 1 ∧
    (mkDish emptyMenu sampleDraft).isActive = true ∧
    activeDishes menuDemo1 = [mkDish emptyMenu sampleDraft] ∧
    archiveDishes menuDemo1 = [mkDish emptyMenu sampleDraft] ∧
    archiveIds (addMenuItem (addMenuItem menuDemo1 sampleDraft) sampleDraft) = [1, 2, 3] := by
  have hw : WFMenu emptyMenu := by
    constructor <;> intro r hr <;> simp [emptyMenu] at hr
  have h := addMenuItem_spec emptyMenu sampleDraft sampleDraft sampleDraft sampleDraft hw
  refine ⟨h.2.1 rfl, h.2.2.1, ?_, ?_, h.2.2.2.2.2.2.2.1⟩
  · simpa [menuDemo1] using h.2.2.2.1
  · simpa [menuDemo1] using h.2.2.2.2.1

/-- C4 counterexample: after adding one dish to the empty manager the
archive entry of id 1 carries `isActive = true` but the dish is on the
active list, and the soft removal of id 1 flips that very archive
entry's `isActive` to `false` — the active entry and the archive entry
are the same object, so the archive entry is not untouched. -/
theorem removeMenuItem_archive_flag_cex :
    1 ∈ activeIds menuDemo1 ∧
    ((archiveDishes menuDemo1).find? (fun x => x.id == 1)).map (fun x => x.isActive) =
      some true ∧
    ((archiveDishes menuDemo2).find? (fun x => x.id == 1)).map (fun x => x.isActive) =
      some false := by
  decide

/-- C4 amended: `removeMenuItem` never touches the archive reference
list, the archived ids, or the persisted archive snapshot, and changes
no field of any dish other than `isActive`; when the id is found on the
active list, that entry alone is spliced out of the active list, and
the shared dish object — hence the archive's view of it — gets
`isActive = false`. -/
theorem removeMenuItem_archive_frame (s : MenuState) (itemId : Nat) :
    (removeMenuItem s itemId).allDishes = s.allDishes ∧
    archiveIds (removeMenuItem s itemId) = archiveIds s ∧
    (∀ j : Nat,
      (cellAt (removeMenuItem s itemId).heap j).id = (cellAt s.heap j).id ∧
      (cellAt (removeMenuItem s itemId).heap j).name = (cellAt s.heap j).name ∧
      (cellAt (removeMenuItem s itemId).heap j).price = (cellAt s.heap j).price ∧
      (cellAt (removeMenuItem s itemId).heap j).description = (cellAt s.heap j).description ∧
      (cellAt (removeMenuItem s itemId).heap j).category = (cellAt s.heap j).category ∧
      (cellAt (removeMenuItem s itemId).heap j).image = (cellAt s.heap j).image ∧
      (cellAt (removeMenuItem s itemId).heap j).isNew = (cellAt s.heap j).isNew) ∧
    (removeMenuItem s itemId).storedAll = s.storedAll ∧
    (∀ i, findIndex (fun r => (cellAt s.heap r).id == itemId) s.items = some i →
      (removeMenuItem s itemId).items = s.items.eraseIdx i ∧
      (WFMenu s → (cellAt (removeMenuItem s itemId).heap (s.items.getD i 0)).isActive = false)) := by
  cases hidx : findIndex (fun r => (cellAt s.heap r).id == itemId) s.items with
  | none =>
    have hs : removeMenuItem s itemId = s := by
      simp [removeMenuItem, hidx]
    rw [hs]
    refine ⟨rfl, rfl, fun j => ⟨rfl, rfl, rfl, rfl, rfl, rfl, rfl⟩, rfl, ?_⟩
    intro i hi
    cases hi
  | some i0 =>
    have hs : removeMenuItem s itemId =
        ⟨modifyAt s.heap (s.items.getD i0 0) (fun c => { c with isActive := false }),
         s.items.eraseIdx i0, s.allDishes,
         derefAll (modifyAt s.heap (s.items.getD i0 0) (fun c => { c with isActive := false }))
           (s.items.eraseIdx i0), s.storedAll⟩ := by
      simp [removeMenuItem, hidx]
    rw [hs]
    have hproj : ∀ (g : MenuItem → String) (hg : ∀ x : MenuItem,
        g { x with isActive := false } = g x) (j : Nat),
        g (cellAt (modifyAt s.heap (s.items.getD i0 0)
          (fun c => { c with isActive := false })) j) = g (cellAt s.heap j) := by
      intro g hg j
      simpa [cellAt] using
        getD_modifyAt_proj g (fun c => { c with isActive := false }) hg s.heap
          (s.items.getD i0 0) j defaultDish
    have hid : ∀ j : Nat,
        (cellAt (modifyAt s.heap (s.items.getD i0 0)
          (fun c => { c with isActive := false })) j).id = (cellAt s.heap j).id := by
      intro j
      simpa [cellAt] using
        getD_modifyAt_proj (fun c => c.id) (fun c => { c with isActive := false })
          (fun x => rfl) s.heap (s.items.getD i0 0) j defaultDish
    have hnew : ∀ j : Nat,
        (cellAt (modifyAt s.heap (s.items.getD i0 0)
          (fun c => { c with isActive := false })) j).isNew = (cellAt s.heap j).isNew := by
      intro j
      simpa [cellAt] using
        getD_modifyAt_proj (fun c => c.isNew) (fun c => { c with isActive := false })
          (fun x => rfl) s.heap (s.items.getD i0 0) j defaultDish
    have hprice : ∀ j : Nat,
        (cellAt (modifyAt s.heap (s.items.getD i0 0)
          (fun c => { c with isActive := false })) j).price = (cellAt s.heap j).price := by
      intro j
      simpa [cellAt] using
        getD_modifyAt_proj (fun c => c.price) (fun c => { c with isActive := false })
          (fun x => rfl) s.heap (s.items.getD i0 0) j defaultDish
    refine ⟨rfl, ?_, ?_, rfl, ?_⟩
    · simp only [archiveIds, archiveDishes, derefAll, List.map_map]
      exact List.map_congr_left fun r hr => hid r
    · intro j
      exact ⟨hid j, hproj (fun c => c.name) (fun x => rfl) j, hprice j,
        hproj (fun c => c.description) (fun x => rfl) j,
        hproj (fun c => c.category) (fun x => rfl) j,
        hproj (fun c => c.image) (fun x => rfl) j, hnew j⟩
    · intro i hi
      injection hi with hi0
      subst hi0
      refine ⟨rfl, ?_⟩
      intro hwf
      have hlen : i0 < s.items.length :=
        findIndex_lt_length (fun r => (cellAt s.heap r).id == itemId) s.items i0 hidx
      have hmem : s.items.getD i0 0 ∈ s.items := getD_mem s.items i0 0 hlen
      have hbound : s.items.getD i0 0 < s.heap.length := hwf.1 _ hmem
      simp only [cellAt]
      rw [getD_modifyAt_self (fun c => { c with isActive := false }) s.heap
        (s.items.getD i0 0) defaultDish hbound]

/-- Witness for C4 amended at the one-dish manager: removal of id 1
keeps the archive list, ids and snapshot, splices index 0 out of the
active list, and flips the shared isActive flag. -/
theorem removeMenuItem_archive_frame_witness :
    menuDemo2.allDishes = menuDemo1.allDishes ∧
    archiveIds menuDemo2 = archiveIds menuDemo1 ∧
    menuDemo2.storedAll = menuDemo1.storedAll ∧
    menuDemo2.items = menuDemo1.items.eraseIdx 0 ∧
    (cellAt menuDemo2.heap (menuDemo1.items.getD 0 0)).isActive = false := by
  have h := removeMenuItem_archive_frame menuDemo1 1
  have hidx : findIndex (fun r => (cellAt menuDemo1.heap r).id == 1) menuDemo1.items =
      some 0 := by decide
  have h5 := h.2.2.2.2 0 hidx
  have hw : WFMenu menuDemo1 := ⟨by decide, by decide⟩
  exact ⟨h.1, h.2.1, h.2.2.2.1, h5.1, h5.2 hw⟩

/-! Admin order listing claim: lemmas about the stable descending sort. -/

theorem insertDesc_perm (k : String → Int) (o : Order) (l : List Order) :
    List.Perm (insertDesc k o l) (o :: l) := by
  induction l with
  | nil => exact List.Perm.refl _
  | cons x xs ih =>
    by_cases h : k x.date < k o.date
    · simp [insertDesc, h]
    · simp only [insertDesc, if_neg h]
      exact (ih.cons x).trans (List.Perm.swap o x xs)

theorem foldl_insertDesc_perm (k : String → Int) (l acc : List Order) :
    List.Perm (l.foldl (fun a o => insertDesc k o a) acc) (acc ++ l) := by
  induction l generalizing acc with
  | nil => simp
  | cons x xs ih =>
    simp only [List.foldl_cons]
    have h1 := ih (insertDesc k x acc)
    have h2 : List.Perm (insertDesc k x acc ++ xs) (x :: (acc ++ xs)) :=
      (insertDesc_perm k x acc).append_right xs
    exact h1.trans (h2.trans List.perm_middle.symm)

theorem sortDesc_perm (k : String → Int) (l : List Order) :
    List.Perm (sortDesc k l) l := by
  simpa [sortDesc] using foldl_insertDesc_perm k l []

theorem insertDesc_pairwise (k : String → Int) (o : Order) (l : List Order)
    (h : l.Pairwise (fun a b => k b.date ≤ k a.date)) :
    (insertDesc k o l).Pairwise (fun a b => k b.date ≤ k a.date) := by
  induction l with
  | nil => simp [insertDesc]
  | cons x xs ih =>
    rcases List.pairwise_cons.mp h with ⟨hx, hxs⟩
    by_cases hlt : k x.date < k o.date
    · simp only [insertDesc, if_pos hlt]
      refine List.pairwise_cons.mpr ⟨?_, h⟩
      intro y hy
      rcases List.mem_cons.mp hy with rfl | hmem
      · omega
      · have := hx y hmem
        omega
    · simp only [insertDesc, if_neg hlt]
      refine List.pairwise_cons.mpr ⟨?_, ih hxs⟩
      intro y hy
      rcases List.mem_cons.mp ((insertDesc_perm k o xs).mem_iff.mp hy) with rfl | hmem
      · omega
      · exact hx y hmem

theorem foldl_insertDesc_pairwise (k : String → Int) (l acc : List Order)
    (h : acc.Pairwise (fun a b => k b.date ≤ k a.date)) :
    (l.foldl (fun a o => insertDesc k o a) acc).Pairwise
      (fun a b => k b.date ≤ k a.date) := by
  induction l generalizing acc with
  | nil => exact h
  | cons x xs ih => exact ih (insertDesc k x acc) (insertDesc_pairwise k x acc h)

theorem sortDesc_pairwise (k : String → Int) (l : List Order) :
    (sortDesc k l).Pairwise (fun a b => k b.date ≤ k a.date) :=
  foldl_insertDesc_pairwise k l [] (by simp)

theorem insertDesc_front (k : String → Int) (o : Order) (l : List Order)
    (h : ∀ y ∈ l, k y.date < k o.date) : insertDesc k o l = o :: l := by
  cases l with
  | nil => rfl
  | cons x xs => simp [insertDesc, h x (List.mem_cons_self x xs)]

theorem filter_insertDesc (k : String → Int) (o : Order) (l : List Order) (p : Order → Bool)
    (h : l.Pairwise (fun a b => k b.date ≤ k a.date)) :
    (insertDesc k o l).filter p =
      if p o then insertDesc k o (l.filter p) else l.filter p := by
  induction l with
  | nil => by_cases hp : p o <;> simp [insertDesc, hp]
  | cons x xs ih =>
    rcases List.pairwise_cons.mp h with ⟨hx, hxs⟩
    by_cases hlt : k x.date < k o.date
    · have hfront : insertDesc k o ((x :: xs).filter p) = o :: (x :: xs).filter p := by
        apply insertDesc_front
        intro y hy
        rcases List.mem_cons.mp (List.mem_of_mem_filter hy) with rfl | hmem
        · exact hlt
        · have := hx y hmem
          omega
      simp only [insertDesc, if_pos hlt]
      by_cases hp : p o
      · rw [if_pos hp, hfront]
        simp [List.filter_cons, hp]
      · rw [if_neg hp]
        simp [List.filter_cons, hp]
    · simp only [insertDesc, if_neg hlt]
      by_cases hpx : p x
      · have hL : List.filter p (x :: insertDesc k o xs) =
            x :: List.filter p (insertDesc k o xs) := by
          simp [List.filter_cons, hpx]
        have hR : List.filter p (x :: xs) = x :: List.filter p xs := by
          simp [List.filter_cons, hpx]
        by_cases hp : p o
        · rw [hL, hR, ih hxs, if_pos hp, if_pos hp]
          have hstep : insertDesc k o (x :: List.filter p xs) =
              x :: insertDesc k o (List.filter p xs) := by
            simp only [insertDesc, if_neg hlt]
          rw [hstep]
        · rw [hL, hR, ih hxs]
          simp [hp]
      · have hL : List.filter p (x :: insertDesc k o xs) =
            List.filter p (insertDesc k o xs) := by
          simp [List.filter_cons, hpx]
        have hR : List.filter p (x :: xs) = List.filter p xs := by
          simp [List.filter_cons, hpx]
        rw [hL, hR, ih hxs]

theorem foldl_insertDesc_filter (k : String → Int) (p : Order → Bool) (l acc : List Order)
    (h : acc.Pairwise (fun a b => k b.date ≤ k a.date)) :
    (l.foldl (fun a o => insertDesc k o a) acc).filter p =
      (l.filter p).foldl (fun a o => insertDesc k o a) (acc.filter p) := by
  induction l generalizing acc with
  | nil => simp
  | cons x xs ih =>
    simp only [List.foldl_cons, List.filter_cons]
    by_cases hpx : p x
    · simp only [hpx, if_pos, List.foldl_cons]
      rw [ih (insertDesc k x acc) (insertDesc_pairwise k x acc h)]
      rw [filter_insertDesc k x acc p h, if_pos hpx]
    · simp only [hpx, Bool.false_eq_true, if_false]
      rw [ih (insertDesc k x acc) (insertDesc_pairwise k x acc h)]
      rw [filter_insertDesc k x acc p h, if_neg (by simp [hpx])]

theorem sortDesc_filter (k : String → Int) (p : Order → Bool) (l : List Order) :
    (sortDesc k l).filter p = sortDesc k (l.filter p) := by
  simpa [sortDesc] using foldl_insertDesc_filter k p l [] (by simp)

/-- C5: the admin order listing sorts the whole persisted collection by
descending date key — the host valuation `k` of the localized creation
strings stored at checkout — and then filters by the requested status;
as the sort is stable this renders exactly the status-matching orders,
newest first under `k`: the listing equals the stable descending sort
of the matching orders, is a permutation of them, and is sorted. -/
theorem loadAdminOrders_spec (k : String → Int) (orders : List Order) (filterStatus : String) :
    loadAdminOrders k "all" orders = sortDesc k orders ∧
    (filterStatus ≠ "all" →
      loadAdminOrders k filterStatus orders =
        sortDesc k (orders.filter (fun o => statusStr o.status == filterStatus))) ∧
    (filterStatus ≠ "all" →
      List.Perm (loadAdminOrders k filterStatus orders)
        (orders.filter (fun o => statusStr o.status == filterStatus))) ∧
    (loadAdminOrders k filterStatus orders).Pairwise (fun a b => k b.date ≤ k a.date) := by
  refine ⟨by simp [loadAdminOrders], ?_, ?_, ?_⟩
  · intro h
    simp only [loadAdminOrders, if_neg h]
    exact sortDesc_filter k _ orders
  · intro h
    simp only [loadAdminOrders, if_neg h]
    rw [sortDesc_filter]
    exact sortDesc_perm k _
  · by_cases h : filterStatus = "all"
    · simp only [loadAdminOrders, if_pos h]
      exact sortDesc_pairwise k orders
    · simp only [loadAdminOrders, if_neg h]
      exact (sortDesc_pairwise k orders).sublist (List.filter_sublist _)

/-- Witness for C5 on three concrete orders (two pending, one ready,
created on successive days): filtering for pending renders exactly the
two pending orders, newest first. -/
theorem loadAdminOrders_spec_witness :
    loadAdminOrders sampleKey "pending" [sampleOrderA, sampleOrderC, sampleOrderB] =
      sortDesc sampleKey ([sampleOrderA, sampleOrderC, sampleOrderB].filter
        (fun o => statusStr o.status == "pending")) ∧
    loadAdminOrders sampleKey "pending" [sampleOrderA, sampleOrderC, sampleOrderB] =
      [sampleOrderB, sampleOrderA] := by
  refine ⟨(loadAdminOrders_spec sampleKey [sampleOrderA, sampleOrderC, sampleOrderB]
    "pending").2.1 (by decide), ?_⟩
  decide

end Sibsiu
